import Mathlib

/-!
Verification of the lapce word/bracket cursor core.

The development shallowly embeds `lapce-core/src/word.rs` and
`lapce-core/src/bracket.rs`.  The text sequence is modelled as a
`List Char` addressed by codepoint offset; the rope cursor of `xi_rope`
is modelled by explicit offset passing:

  * `next_codepoint` from offset `pos` consumes `text[pos]` and moves to
    `pos + 1`; the codepoints consumed by a forward loop starting at
    `pos` are `text.drop pos`;
  * `prev_codepoint` from offset `pos` consumes `text[pos - 1]` and moves
    to `pos - 1`; the codepoints consumed by a backward loop starting at
    `pos` are `(text.take pos).reverse`;
  * `peek_next_codepoint` at offset `pos` is `text[pos]?`.

Each cursor operation returns its result together with the final cursor
offset, so statements about the cursor's position after a call can be
made directly.
-/

namespace LapceCore

/-- Char classifications used to compose word boundaries
(`CharClassification` in `word.rs`). -/
inductive CharClassification where
  | Cr
  | Lf
  | Space
  | Punctuation
  | Other
deriving DecidableEq

/-- A word boundary kind (`WordBoundary` in `word.rs`). -/
inductive WordBoundary where
  | Interior
  | Start
  | End
  | Both
deriving DecidableEq

/-- `WordBoundary::is_start` from `word.rs`. -/
def WordBoundary.is_start (b : WordBoundary) : Bool :=
  decide (b = WordBoundary.Start) || decide (b = WordBoundary.Both)

/-- `WordBoundary.is_end` from `word.rs` (`is_end` checks End or Both). -/
def WordBoundary.is_end (b : WordBoundary) : Bool :=
  decide (b = WordBoundary.End) || decide (b = WordBoundary.Both)

/-- Core of `get_char_property` from `word.rs`, expressed on the Unicode
scalar value of the input character.  Rust's `char` comparisons compare
scalar values, and both bit-mask shifts are by amounts `< 64`, so the
`u64` operations coincide with the `Nat` operations used here. -/
def get_char_property_code (cp : Nat) : CharClassification :=
  if cp ≤ 0x20 then
    if cp = 0x0d then CharClassification.Cr
    else if cp = 0x0a then CharClassification.Lf
    else CharClassification.Space
  else if cp ≤ 0x3f then
    if (0xfc00fffe00000000 >>> cp) &&& 1 ≠ 0 then CharClassification.Punctuation
    else CharClassification.Other
  else if cp ≤ 0x7f then
    -- Hardcoded: @[\]^`{|}~
    if (0x7800000178000001 >>> (cp &&& 0x3f)) &&& 1 ≠ 0 then CharClassification.Punctuation
    else CharClassification.Other
  else CharClassification.Other

/-- `get_char_property` from `word.rs`: the `CharClassification` of the
input character. -/
def get_char_property (codepoint : Char) : CharClassification :=
  get_char_property_code codepoint.toNat

/-- `classify_boundary` from `word.rs`.  Lean's `match` resolves
overlapping patterns top-down, first match wins, exactly like the Rust
`match` it is translated from. -/
def classify_boundary (prev next : CharClassification) : WordBoundary :=
  match prev, next with
  | .Lf, .Lf => .Start
  | .Lf, .Space => .Interior
  | .Cr, .Lf => .Interior
  | .Space, .Lf => .Interior
  | .Space, .Cr => .Interior
  | .Space, .Space => .Interior
  | _, .Space => .End
  | .Space, _ => .Start
  | .Lf, _ => .Start
  | _, .Cr => .End
  | _, .Lf => .End
  | .Punctuation, .Other => .Both
  | .Other, .Punctuation => .Both
  | _, _ => .Interior

/-- A rule of the boundary table of spec section 4.2: a pattern for the
previous class, a pattern for the next class (`none` is the wildcard),
and the resulting boundary kind. -/
def BoundaryRule : Type :=
  Option CharClassification × Option CharClassification × WordBoundary

/-- Whether one pattern of a boundary rule accepts a class. -/
def ruleAccepts (pat : Option CharClassification) (x : CharClassification) : Bool :=
  match pat with
  | none => true
  | some y => decide (x = y)

/-- The thirteen explicit rules of the boundary table of spec section
4.2, in the exact order listed there; the fourteenth rule is the
otherwise-case of `boundary_table_spec`. -/
def boundaryRules : List BoundaryRule :=
  [ (some .Lf, some .Lf, .Start),
    (some .Lf, some .Space, .Interior),
    (some .Cr, some .Lf, .Interior),
    (some .Space, some .Lf, .Interior),
    (some .Space, some .Cr, .Interior),
    (some .Space, some .Space, .Interior),
    (none, some .Space, .End),
    (some .Space, none, .Start),
    (some .Lf, none, .Start),
    (none, some .Cr, .End),
    (none, some .Lf, .End),
    (some .Punctuation, some .Other, .Both),
    (some .Other, some .Punctuation, .Both) ]

/-- The boundary classifier as the spec words it: evaluate the fourteen
rules of the section 4.2 table in order, first match wins, with the
fourteenth rule `otherwise -> Interior`. -/
def boundary_table_spec (prev next : CharClassification) : WordBoundary :=
  match boundaryRules.find? (fun r => ruleAccepts r.1 prev && ruleAccepts r.2.1 next) with
  | some r => r.2.2
  | none => WordBoundary.Interior

/-- The codes of `! " # $ % & ' ( ) * + , - . / : ; < = > ?`, the
punctuation characters of the block U+0021..U+003F named by the spec
(U+0021..U+002F and U+003A..U+003F). -/
def punctuationBlock1 : List Nat :=
  [0x21, 0x22, 0x23, 0x24, 0x25, 0x26, 0x27, 0x28, 0x29, 0x2a, 0x2b,
   0x2c, 0x2d, 0x2e, 0x2f, 0x3a, 0x3b, 0x3c, 0x3d, 0x3e, 0x3f]

/-- The codes of `@ [ \ ] ^ backtick { | } ~`, the punctuation characters
of the block U+0040..U+007F named by the spec (note that `_`, U+005F, is
not among them). -/
def punctuationBlock2 : List Nat :=
  [0x40, 0x5b, 0x5c, 0x5d, 0x5e, 0x60, 0x7b, 0x7c, 0x7d, 0x7e]

/-- The character classifier as the spec words it: `\r` is Cr, `\n` is
Lf, every other codepoint at most U+0020 is Space, the two punctuation
blocks are decided by list membership, and everything else (including
every non-ASCII codepoint) is Other. -/
def char_property_spec (cp : Nat) : CharClassification :=
  if cp = 0x0d then CharClassification.Cr
  else if cp = 0x0a then CharClassification.Lf
  else if cp ≤ 0x20 then CharClassification.Space
  else if cp ≤ 0x3f then
    if cp ∈ punctuationBlock1 then CharClassification.Punctuation
    else CharClassification.Other
  else if cp ≤ 0x7f then
    if cp ∈ punctuationBlock2 then CharClassification.Punctuation
    else CharClassification.Other
  else CharClassification.Other

theorem get_char_property_code_eq_spec (cp : Nat) :
    get_char_property_code cp = char_property_spec cp := by
  by_cases h : cp < 0x80
  · revert h
    revert cp
    decide
  · have h1 : ¬ cp ≤ 0x20 := by omega
    have h2 : ¬ cp ≤ 0x3f := by omega
    have h3 : ¬ cp ≤ 0x7f := by omega
    have h4 : cp ≠ 0x0d := by omega
    have h5 : cp ≠ 0x0a := by omega
    simp [get_char_property_code, char_property_spec, h1, h2, h3, h4, h5]

/-- Claim C1: for every pair of character classes, `classify_boundary`
returns the boundary kind obtained by evaluating the fourteen rules of
the section 4.2 table in the exact order listed, first match wins. -/
theorem classify_boundary_follows_table :
    ∀ prev next : CharClassification,
      classify_boundary prev next = boundary_table_spec prev next := by
  intro prev next
  cases prev <;> cases next <;> decide

/-- Claim C2 counterexample: `classify_boundary (Cr, Space)` is not
`Interior`; the pair does not fall through to the final otherwise-rule
of the table. -/
theorem classify_boundary_cr_space_not_interior :
    classify_boundary CharClassification.Cr CharClassification.Space ≠
      WordBoundary.Interior := by
  decide

/-- Claim C2 (amended): `classify_boundary (Cr, Space)` returns `End`,
because the pair (CR, Space) matches rule 7 of the section 4.2 table,
`(*, Space) -> End`, before the final otherwise-rule is reached. -/
theorem classify_boundary_cr_space_eq_end :
    classify_boundary CharClassification.Cr CharClassification.Space =
      WordBoundary.End := by
  decide

/-- Claim C3: the character classifier is total over all Unicode scalar
values and agrees everywhere with the spec's description: `\r` maps to
Cr, `\n` to Lf, every other codepoint at most U+0020 to Space, a
codepoint in U+0021..U+003F to Punctuation exactly when it is listed in
`punctuationBlock1`, a codepoint in U+0040..U+007F to Punctuation
exactly when it is listed in `punctuationBlock2` (so `_` is Other), and
every other codepoint, including every non-ASCII codepoint, to Other. -/
theorem get_char_property_total_spec :
    ∀ c : Char, get_char_property c = char_property_spec c.toNat := by
  intro c
  exact get_char_property_code_eq_spec c.toNat

/-- Loop of `ModalWordCursor::next_boundary`: at loop entry the cursor
offset equals `candidate` and the codepoints still ahead are `l`;
consuming `next` moves the cursor to `candidate + 1`. -/
def nb_go (prop : CharClassification) (candidate : Nat) : List Char → Nat
  | [] => candidate
  | next :: rest =>
    let prop_next := get_char_property next
    if (classify_boundary prop prop_next).is_start then candidate
    else nb_go prop_next (candidate + 1) rest

/-- `ModalWordCursor::next_boundary` from `word.rs`: the result together
with the final cursor offset (the source ends with
`self.inner.set(candidate)` on success). -/
def next_boundary (text : List Char) (pos : Nat) : Option Nat × Nat :=
  match text.drop pos with
  | [] => (none, pos)
  | ch :: rest =>
    let candidate := nb_go (get_char_property ch) (pos + 1) rest
    (some candidate, candidate)

/-- Loop of `ModalWordCursor::end_boundary`, identical to `nb_go` except
that it stops on `is_end` instead of `is_start`. -/
def eb_go (prop : CharClassification) (candidate : Nat) : List Char → Nat
  | [] => candidate
  | next :: rest =>
    let prop_next := get_char_property next
    if (classify_boundary prop prop_next).is_end then candidate
    else eb_go prop_next (candidate + 1) rest

/-- `ModalWordCursor::end_boundary` from `word.rs`: first an unchecked
`next_codepoint` skip (a no-op when already at the end), then the scan. -/
def end_boundary (text : List Char) (pos : Nat) : Option Nat × Nat :=
  let pos1 := if pos < text.length then pos + 1 else pos
  match text.drop pos1 with
  | [] => (none, pos1)
  | ch :: rest =>
    let candidate := eb_go (get_char_property ch) (pos1 + 1) rest
    (some candidate, candidate)

/-- Loop of `ModalWordCursor::prev_boundary`: at loop entry the cursor
offset equals `candidate` and the codepoints still behind the cursor,
in consumption order, are `l`; consuming moves to `candidate - 1`. -/
def pb_go (prop : CharClassification) (candidate : Nat) : List Char → Nat
  | [] => candidate
  | prev :: rest =>
    let prop_prev := get_char_property prev
    if (classify_boundary prop_prev prop).is_start then candidate
    else pb_go prop_prev (candidate - 1) rest

/-- `ModalWordCursor::prev_boundary` from `word.rs`. -/
def prev_boundary (text : List Char) (pos : Nat) : Option Nat × Nat :=
  match (text.take pos).reverse with
  | [] => (none, pos)
  | ch :: rest =>
    let candidate := pb_go (get_char_property ch) (pos - 1) rest
    (some candidate, candidate)

/-- Loop of `ModalWordCursor::prev_code_boundary`: at loop entry the
cursor offset equals `candidate`; on hitting a non-`Other` codepoint the
loop breaks with the cursor already moved to `candidate - 1`, and the
function returns without repositioning the cursor (there is no
`self.inner.set` in the source).  Result: (returned offset, final
cursor offset). -/
def pcb_go (candidate : Nat) : List Char → Nat × Nat
  | [] => (candidate, candidate)
  | prev :: rest =>
    if get_char_property prev ≠ CharClassification.Other then
      (candidate, candidate - 1)
    else pcb_go (candidate - 1) rest

/-- `ModalWordCursor::prev_code_boundary` from `word.rs`. -/
def prev_code_boundary (text : List Char) (pos : Nat) : Nat × Nat :=
  pcb_go pos ((text.take pos).reverse)

/-- Loop of `ModalWordCursor::next_code_boundary`; like
`prev_code_boundary` the source never repositions the cursor. -/
def ncb_go (candidate : Nat) : List Char → Nat × Nat
  | [] => (candidate, candidate)
  | next :: rest =>
    if get_char_property next ≠ CharClassification.Other then
      (candidate, candidate + 1)
    else ncb_go (candidate + 1) rest

/-- `ModalWordCursor::next_code_boundary` from `word.rs`. -/
def next_code_boundary (text : List Char) (pos : Nat) : Nat × Nat :=
  ncb_go pos (text.drop pos)

/-- Loop of `ModalWordCursor::next_non_blank_char`. -/
def nnbc_go (candidate : Nat) : List Char → Nat
  | [] => candidate
  | next :: rest =>
    if get_char_property next ≠ CharClassification.Space then candidate
    else nnbc_go (candidate + 1) rest

/-- `ModalWordCursor::next_non_blank_char` from `word.rs`; the source
ends with `self.inner.set(candidate)`. -/
def next_non_blank_char (text : List Char) (pos : Nat) : Nat × Nat :=
  let candidate := nnbc_go pos (text.drop pos)
  (candidate, candidate)

/-- Loop of `ModalWordCursor::prev_deletion_boundary`: `prop` is the
previously seen class, `prop_prev` the newly consumed one, and
`keep_word` the flag of the source; the two `if` statements of the
source that set `keep_word = true` are folded into the single update
`kw`. -/
def pdb_go (prop : CharClassification) (keep_word : Bool) (candidate : Nat) :
    List Char → Nat
  | [] => candidate
  | prev :: rest =>
    let prop_prev := get_char_property prev
    if prop_prev = CharClassification.Lf ∧ prop = CharClassification.Space then
      candidate
    else
      let kw :=
        if (prop = CharClassification.Space ∧ prop_prev = CharClassification.Space)
            ∨ prop = CharClassification.Lf ∨ prop = CharClassification.Cr then
          true
        else keep_word
      if kw = true ∧ (prop_prev = CharClassification.Punctuation
          ∨ prop_prev = CharClassification.Other) then candidate
      else if (classify_boundary prop_prev prop).is_start then candidate
      else pdb_go prop_prev kw (candidate - 1) rest

/-- `ModalWordCursor::prev_deletion_boundary` from `word.rs`. -/
def prev_deletion_boundary (text : List Char) (pos : Nat) : Option Nat × Nat :=
  match (text.take pos).reverse with
  | [] => (none, pos)
  | ch :: rest =>
    let candidate := pdb_go (get_char_property ch) false (pos - 1) rest
    (some candidate, candidate)

/-- `ModalWordCursor::select_word` from `word.rs`: compute the forward
code boundary, reset the cursor to the initial offset, compute the
backward code boundary; the final cursor offset is wherever
`prev_code_boundary` leaves it. -/
def select_word (text : List Char) (pos : Nat) : (Nat × Nat) × Nat :=
  let e := (next_code_boundary text pos).1
  let sp := prev_code_boundary text pos
  ((sp.1, e), sp.2)

/-- Claim C4 (code bug evaluation): `prev_code_boundary` on
`"violet, are\n blue"` from offset 11 returns offset 8 but leaves the
cursor at offset 7, and `next_code_boundary` from the same offset
returns 11 but leaves the cursor at 12; neither function repositions
the cursor to the returned offset, contradicting the doc comments of
both functions ("... and set the cursor position to this location"). -/
theorem code_boundary_does_not_reposition :
    prev_code_boundary ("violet, are\n blue".toList) 11 = (8, 7)
    ∧ next_code_boundary ("violet, are\n blue".toList) 11 = (11, 12)
    ∧ (prev_code_boundary ("violet, are\n blue".toList) 11).2 ≠
        (prev_code_boundary ("violet, are\n blue".toList) 11).1
    ∧ (next_code_boundary ("violet, are\n blue".toList) 11).2 ≠
        (next_code_boundary ("violet, are\n blue".toList) 11).1 := by
  refine ⟨by decide, by decide, by decide, by decide⟩

/-- Claim C5 counterexample: on `"Hello world"` (length 11) the scan
starting at offset 10 starts at the last codepoint, yet `next_boundary`
returns `some 11`, not `none` as the claim states. -/
theorem next_boundary_some_at_last_codepoint :
    ("Hello world".toList).length = 11
    ∧ (next_boundary ("Hello world".toList) 10).1 = some 11 := by
  exact ⟨by decide, by decide⟩

/-- Claim C5 (amended): `next_boundary` returns `none` exactly when the
starting offset is at or past the end of the sequence (no codepoint
remains to consume); for any other starting offset it returns `some`
offset, e.g. `some 6` on `"Hello world"` from 0 (the first codepoint of
the next word). -/
theorem next_boundary_none_iff_past_end :
    (∀ (text : List Char) (pos : Nat),
      (next_boundary text pos).1 = none ↔ text.length ≤ pos)
    ∧ (next_boundary ("Hello world".toList) 0).1 = some 6 := by
  constructor
  · intro text pos
    rw [← List.drop_eq_nil_iff]
    cases h : text.drop pos <;> simp [next_boundary, h]
  · decide

/-- The deletion scan exactly as claim C6 words it: same layered rules
(a)-(f) of spec section 4.3, but step (e) stops only when the boundary
is literally `Start` (not `Both`). -/
def pdb_claim_go (prop : CharClassification) (keep_word : Bool) (candidate : Nat) :
    List Char → Nat
  | [] => candidate
  | prev :: rest =>
    let prop_prev := get_char_property prev
    if prop_prev = CharClassification.Lf ∧ prop = CharClassification.Space then
      candidate
    else
      let kw :=
        if (prop = CharClassification.Space ∧ prop_prev = CharClassification.Space)
            ∨ prop = CharClassification.Lf ∨ prop = CharClassification.Cr then
          true
        else keep_word
      if kw = true ∧ (prop_prev = CharClassification.Punctuation
          ∨ prop_prev = CharClassification.Other) then candidate
      else if classify_boundary prop_prev prop = WordBoundary.Start then candidate
      else pdb_claim_go prop_prev kw (candidate - 1) rest

/-- `prev_deletion_boundary` as claim C6 words it (stopping at step (e)
only on `Start`). -/
def prev_deletion_boundary_claim (text : List Char) (pos : Nat) : Option Nat :=
  match (text.take pos).reverse with
  | [] => none
  | ch :: rest => some (pdb_claim_go (get_char_property ch) false (pos - 1) rest)

/-- The deletion scan as claim C6 amended: step (e) stops when the
boundary is a start boundary, i.e. `Start` or `Both` (this is the
`is_start()` test of the source). -/
def pdb_amended_go (prop : CharClassification) (keep_word : Bool) (candidate : Nat) :
    List Char → Nat
  | [] => candidate
  | prev :: rest =>
    let prop_prev := get_char_property prev
    if prop_prev = CharClassification.Lf ∧ prop = CharClassification.Space then
      candidate
    else
      let kw :=
        if (prop = CharClassification.Space ∧ prop_prev = CharClassification.Space)
            ∨ prop = CharClassification.Lf ∨ prop = CharClassification.Cr then
          true
        else keep_word
      if kw = true ∧ (prop_prev = CharClassification.Punctuation
          ∨ prop_prev = CharClassification.Other) then candidate
      else if (classify_boundary prop_prev prop).is_start then candidate
      else pdb_amended_go prop_prev kw (candidate - 1) rest

/-- `prev_deletion_boundary` as amended claim C6 words it. -/
def prev_deletion_boundary_amended (text : List Char) (pos : Nat) : Option Nat :=
  match (text.take pos).reverse with
  | [] => none
  | ch :: rest => some (pdb_amended_go (get_char_property ch) false (pos - 1) rest)

/-- Claim C6 counterexample: on `"ab.cd"` from offset 5 the rules as the
claim words them (stop at step (e) only on `Start`) yield `some 0`, but
the code stops on `Both` at the punctuation transition and returns
`some 3`. -/
theorem prev_deletion_boundary_claim_rules_differ :
    prev_deletion_boundary_claim ("ab.cd".toList) 5 = some 0
    ∧ (prev_deletion_boundary ("ab.cd".toList) 5).1 = some 3
    ∧ (prev_deletion_boundary ("ab.cd".toList) 5).1 ≠
        prev_deletion_boundary_claim ("ab.cd".toList) 5 := by
  refine ⟨by decide, by decide, by decide⟩

theorem pdb_go_eq_amended (l : List Char) :
    ∀ prop keep_word candidate,
      pdb_go prop keep_word candidate l = pdb_amended_go prop keep_word candidate l := by
  induction l with
  | nil => intro prop kw cand; rfl
  | cons prev rest ih =>
    intro prop kw cand
    simp only [pdb_go, pdb_amended_go]
    split
    · rfl
    · split
      · split
        · rfl
        · split
          · rfl
          · exact ih _ _ _
      · split
        · rfl
        · split
          · rfl
          · exact ih _ _ _

/-- Claim C6 (amended): `prev_deletion_boundary` implements the layered
deletion rules of section 4.3 in order, with step (e) stopping when the
boundary is `Start` or `Both`; it returns `none` exactly when the
cursor starts at offset 0; and on `"violet are blue"` from offset 9 it
returns `some 7`. -/
theorem prev_deletion_boundary_spec :
    (∀ (text : List Char) (pos : Nat),
      (prev_deletion_boundary text pos).1 = prev_deletion_boundary_amended text pos)
    ∧ (∀ (text : List Char) (pos : Nat), pos ≤ text.length →
      ((prev_deletion_boundary text pos).1 = none ↔ pos = 0))
    ∧ (prev_deletion_boundary ("violet are blue".toList) 9).1 = some 7 := by
  refine ⟨?_, ?_, by decide⟩
  · intro text pos
    cases h : (text.take pos).reverse with
    | nil => simp [prev_deletion_boundary, prev_deletion_boundary_amended, h]
    | cons ch rest =>
      simp [prev_deletion_boundary, prev_deletion_boundary_amended, h,
        pdb_go_eq_amended]
  · intro text pos hle
    cases h : (text.take pos).reverse with
    | nil =>
      have h' : text.take pos = [] := by simpa using congrArg List.reverse h
      have hlen : (text.take pos).length = 0 := by rw [h']; rfl
      rw [List.length_take] at hlen
      have hpos : pos = 0 := by omega
      simp [prev_deletion_boundary, h, hpos]
    | cons ch rest =>
      have hpos : pos ≠ 0 := by
        intro hz
        rw [hz] at h
        simp at h
      simp [prev_deletion_boundary, h, hpos]

/-- Claim C6 witness: the amended theorem applied at the concrete input
`"ab"`, offset 2 (discharging the hypothesis `2 ≤ length`). -/
theorem prev_deletion_boundary_spec_witness :
    (2 ≤ ("ab".toList).length)
    ∧ ((prev_deletion_boundary ("ab".toList) 2).1 = none ↔ 2 = 0) := by
  exact ⟨by decide, prev_deletion_boundary_spec.2.1 ("ab".toList) 2 (by decide)⟩

theorem ncb_go_ge (l : List Char) : ∀ cand, cand ≤ (ncb_go cand l).1 := by
  induction l with
  | nil => intro cand; exact Nat.le_refl _
  | cons next rest ih =>
    intro cand
    simp only [ncb_go]
    split
    · exact Nat.le_refl _
    · exact Nat.le_trans (Nat.le_succ _) (ih (cand + 1))

theorem ncb_go_mem (l : List Char) :
    ∀ cand k, cand ≤ k → k < (ncb_go cand l).1 →
      ∃ ch, l[k - cand]? = some ch ∧ get_char_property ch = CharClassification.Other := by
  induction l with
  | nil => intro cand k hk hlt; simp only [ncb_go] at hlt; omega
  | cons next rest ih =>
    intro cand k hk hlt
    simp only [ncb_go] at hlt
    by_cases hc : get_char_property next ≠ CharClassification.Other
    · rw [if_pos hc] at hlt; omega
    · rw [if_neg hc] at hlt
      push_neg at hc
      by_cases hek : k = cand
      · subst hek
        refine ⟨next, ?_, hc⟩
        simp
      · have h1 : cand + 1 ≤ k := by omega
        obtain ⟨ch, hch, hcl⟩ := ih (cand + 1) k h1 hlt
        refine ⟨ch, ?_, hcl⟩
        have hidx : k - cand = (k - (cand + 1)) + 1 := by omega
        rw [hidx, List.getElem?_cons_succ]
        exact hch

theorem pcb_go_le (l : List Char) : ∀ cand, (pcb_go cand l).1 ≤ cand := by
  induction l with
  | nil => intro cand; exact Nat.le_refl _
  | cons prev rest ih =>
    intro cand
    simp only [pcb_go]
    split
    · exact Nat.le_refl _
    · exact Nat.le_trans (ih (cand - 1)) (Nat.sub_le _ _)

theorem pcb_go_mem (l : List Char) :
    ∀ cand k, (pcb_go cand l).1 ≤ k → k < cand →
      ∃ ch, l[cand - 1 - k]? = some ch ∧ get_char_property ch = CharClassification.Other := by
  induction l with
  | nil => intro cand k hk hlt; simp only [pcb_go] at hk; omega
  | cons prev rest ih =>
    intro cand k hk hlt
    simp only [pcb_go] at hk
    by_cases hc : get_char_property prev ≠ CharClassification.Other
    · rw [if_pos hc] at hk; omega
    · rw [if_neg hc] at hk
      push_neg at hc
      by_cases hek : k = cand - 1
      · have hidx : cand - 1 - k = 0 := by omega
        rw [hidx]
        exact ⟨prev, by simp, hc⟩
      · have h2 : k < cand - 1 := by omega
        obtain ⟨ch, hch, hcl⟩ := ih (cand - 1) k hk h2
        refine ⟨ch, ?_, hcl⟩
        have hidx : cand - 1 - k = ((cand - 1) - 1 - k) + 1 := by omega
        rw [hidx, List.getElem?_cons_succ]
        exact hch

/-- Claim C10: for every sequence and every valid starting offset
`pos ≤ length`, `select_word` returns a pair `(start, end)` with
`start ≤ pos ≤ end` such that every codepoint at an offset in
`[start, end)` is classified `Other` (when `pos` sits on whitespace or
punctuation one or both half-ranges are empty). -/
theorem select_word_other_run :
    ∀ (text : List Char) (pos : Nat), pos ≤ text.length →
      (select_word text pos).1.1 ≤ pos
      ∧ pos ≤ (select_word text pos).1.2
      ∧ ∀ k, (select_word text pos).1.1 ≤ k → k < (select_word text pos).1.2 →
          ∃ ch, text[k]? = some ch ∧ get_char_property ch = CharClassification.Other := by
  intro text pos hpos
  refine ⟨pcb_go_le _ pos, ncb_go_ge _ pos, ?_⟩
  intro k hks hke
  by_cases hk : k < pos
  · obtain ⟨ch, hch, hcl⟩ :=
      pcb_go_mem ((text.take pos).reverse) pos k hks hk
    refine ⟨ch, ?_, hcl⟩
    have hlen : (text.take pos).length = pos := by
      rw [List.length_take]; omega
    have hbound : pos - 1 - k < (text.take pos).length := by omega
    rw [List.getElem?_reverse hbound] at hch
    have hidx : (text.take pos).length - 1 - (pos - 1 - k) = k := by omega
    rw [hidx, List.getElem?_take_of_lt hk] at hch
    exact hch
  · push_neg at hk
    obtain ⟨ch, hch, hcl⟩ :=
      ncb_go_mem (text.drop pos) pos k hk hke
    refine ⟨ch, ?_, hcl⟩
    rw [List.getElem?_drop] at hch
    have hidx : pos + (k - pos) = k := by omega
    rw [hidx] at hch
    exact hch

/-- Claim C10 witness: the theorem applied on `"violet are blue"` at
offset 9 (the hypothesis `9 ≤ length` holds, and offset 8 lies inside
the returned range and carries an `Other` codepoint). -/
theorem select_word_other_run_witness :
    9 ≤ ("violet are blue".toList).length
    ∧ (select_word ("violet are blue".toList) 9).1.1 ≤ 9
    ∧ 9 ≤ (select_word ("violet are blue".toList) 9).1.2
    ∧ ∃ ch, ("violet are blue".toList)[8]? = some ch
        ∧ get_char_property ch = CharClassification.Other := by
  refine ⟨by decide, ?_, ?_, ?_⟩
  · exact (select_word_other_run ("violet are blue".toList) 9 (by decide)).1
  · exact (select_word_other_run ("violet are blue".toList) 9 (by decide)).2.1
  · exact (select_word_other_run ("violet are blue".toList) 9 (by decide)).2.2 8
      (by decide) (by decide)

/-- Modelled from the spec: `crate::syntax::util::matching_char`, the
external delimiter-pairing collaborator of section 6 (`counterpart(ch) ->
Option<Codepoint>`, `None` if `ch` is not a recognized delimiter), is not
part of the two visible source files.  It is the total map pairing each
delimiter of the three bracket pairs `( )`, `[ ]`, `{ }` with its
counterpart. -/
def matching_char (c : Char) : Option Char :=
  match c with
  | '\x7b' => some '\x7d'
  | '\x7d' => some '\x7b'
  | '(' => some ')'
  | ')' => some '('
  | '[' => some ']'
  | ']' => some '['
  | _ => none

/-- Modelled from the spec: `crate::syntax::util::matching_pair_direction`,
the `is_opener(ch) -> Option<bool>` lookup of section 6, classifying a
recognized delimiter as opener (`some true`) or closer (`some false`). -/
def matching_pair_direction (c : Char) : Option Bool :=
  match c with
  | '\x7b' => some true
  | '\x7d' => some false
  | '(' => some true
  | ')' => some false
  | '[' => some true
  | ']' => some false
  | _ => none

theorem matching_char_ne {a b : Char} (h : matching_char a = some b) : a ≠ b := by
  unfold matching_char at h
  split at h <;> first
    | (injection h with h; subst h; decide)
    | exact Option.noConfusion h

theorem matching_char_symm {a b : Char} (h : matching_char a = some b) :
    matching_char b = some a := by
  unfold matching_char at h
  split at h <;> first
    | (injection h with h; subst h; decide)
    | exact Option.noConfusion h

theorem matching_char_direction {a b : Char} (h : matching_char a = some b) :
    (matching_pair_direction a = some true ∧ matching_pair_direction b = some false)
    ∨ (matching_pair_direction a = some false ∧ matching_pair_direction b = some true) := by
  unfold matching_char at h
  split at h <;> first
    | (injection h with h; subst h; decide)
    | exact Option.noConfusion h

/-- Loop of `BracketCursor::next_unmatched` and
`BracketCursor::previous_unmatched`, which perform the same scan in
opposite directions: consume codepoints from `l`, keeping the nesting
depth `n`; on the unmatched hit, return how many codepoints were
consumed (the caller converts the count to an absolute offset, adding it
for the forward scan and subtracting it for the backward scan, matching
`self.inner.pos()` at the return). -/
def unmatched_go (c other : Char) : List Char → Nat → Option Nat
  | [], _ => none
  | x :: xs, n =>
    if x = c ∧ n = 0 then some 1
    else if x = other then (unmatched_go c other xs (n + 1)).map (· + 1)
    else if x = c then (unmatched_go c other xs (n - 1)).map (· + 1)
    else (unmatched_go c other xs n).map (· + 1)

/-- `BracketCursor::next_unmatched` from `bracket.rs`: scan forward from
`pos` (consuming `text.drop pos`) for the first unmatched `c`. -/
def next_unmatched (text : List Char) (pos : Nat) (c : Char) : Option Nat :=
  match matching_char c with
  | none => none
  | some other => (unmatched_go c other (text.drop pos) 0).map (· + pos)

/-- `BracketCursor::previous_unmatched` from `bracket.rs`: scan backward
from `pos` (consuming `(text.take pos).reverse`) for the first unmatched
`c`. -/
def previous_unmatched (text : List Char) (pos : Nat) (c : Char) : Option Nat :=
  match matching_char c with
  | none => none
  | some other => (unmatched_go c other ((text.take pos).reverse) 0).map (fun k => pos - k)

/-- `BracketCursor::match_pairs` from `bracket.rs`: peek the codepoint
under the cursor, look up its counterpart and the counterpart's
direction; search backward for the counterpart when the counterpart is
an opener, otherwise consume the opener and search forward, reporting
the forward result minus one. -/
def match_pairs (text : List Char) (pos : Nat) : Option Nat :=
  match text[pos]? with
  | none => none
  | some c =>
    match matching_char c with
    | none => none
    | some other =>
      match matching_pair_direction other with
      | none => none
      | some left =>
        if left then previous_unmatched text pos other
        else (next_unmatched text (pos + 1) other).map (fun r => r - 1)

/-- Claim C7: `match_pairs` returns `none` on an unrecognized codepoint,
searches backward via `previous_unmatched(counterpart)` when the
counterpart is an opener, searches forward via
`next_unmatched(counterpart)` minus one when it is a closer; and on
`"{ }"` it maps offset 2 to `some 0`, offset 0 to `some 2` and offset 1
to `none`. -/
theorem match_pairs_cases :
    (∀ (text : List Char) (pos : Nat) (c : Char),
      text[pos]? = some c → matching_char c = none → match_pairs text pos = none)
    ∧ (∀ (text : List Char) (pos : Nat) (c other : Char),
      text[pos]? = some c → matching_char c = some other →
      matching_pair_direction other = some true →
      match_pairs text pos = previous_unmatched text pos other)
    ∧ (∀ (text : List Char) (pos : Nat) (c other : Char),
      text[pos]? = some c → matching_char c = some other →
      matching_pair_direction other = some false →
      match_pairs text pos = (next_unmatched text (pos + 1) other).map (fun r => r - 1))
    ∧ match_pairs ("\x7b \x7d".toList) 2 = some 0
    ∧ match_pairs ("\x7b \x7d".toList) 0 = some 2
    ∧ match_pairs ("\x7b \x7d".toList) 1 = none := by
  refine ⟨?_, ?_, ?_, by decide, by decide, by decide⟩
  · intro text pos c hpeek hmc
    simp [match_pairs, hpeek, hmc]
  · intro text pos c other hpeek hmc hdir
    simp [match_pairs, hpeek, hmc, hdir]
  · intro text pos c other hpeek hmc hdir
    simp [match_pairs, hpeek, hmc, hdir]

/-- Claim C7 witness: the first case of the theorem applied at the
concrete input `"(a)"`, offset 1, whose codepoint `a` is not a
recognized delimiter. -/
theorem match_pairs_cases_witness :
    ("(a)".toList)[1]? = some 'a'
    ∧ matching_char 'a' = none
    ∧ match_pairs ("(a)".toList) 1 = none := by
  refine ⟨by decide, by decide, ?_⟩
  exact match_pairs_cases.1 ("(a)".toList) 1 'a' (by decide) (by decide)

/-- The unmatched-delimiter scan exactly as claim C8 words it: a
consumed codepoint equal to `c` with depth 0 returns (the count giving)
the offset just after that codepoint; a codepoint equal to the
counterpart increments the depth; a codepoint equal to `c` with
positive depth decrements it; exhausting the sequence yields `none`. -/
def unmatched_spec_go (c other : Char) : List Char → Nat → Option Nat
  | [], _ => none
  | x :: xs, n =>
    if x = c then
      if n = 0 then some 1
      else (unmatched_spec_go c other xs (n - 1)).map (· + 1)
    else if x = other then (unmatched_spec_go c other xs (n + 1)).map (· + 1)
    else (unmatched_spec_go c other xs n).map (· + 1)

/-- `next_unmatched` as claim C8 words it. -/
def next_unmatched_spec (text : List Char) (pos : Nat) (c : Char) : Option Nat :=
  match matching_char c with
  | none => none
  | some other => (unmatched_spec_go c other (text.drop pos) 0).map (· + pos)

/-- `previous_unmatched` as claim C8 words it (the symmetric backward
scan). -/
def previous_unmatched_spec (text : List Char) (pos : Nat) (c : Char) : Option Nat :=
  match matching_char c with
  | none => none
  | some other =>
    (unmatched_spec_go c other ((text.take pos).reverse) 0).map (fun k => pos - k)

theorem unmatched_go_eq_spec {c other : Char} (hne : c ≠ other) (l : List Char) :
    ∀ n, unmatched_go c other l n = unmatched_spec_go c other l n := by
  induction l with
  | nil => intro n; rfl
  | cons x xs ih =>
    intro n
    by_cases hx : x = c
    · subst hx
      have hxo : ¬ x = other := hne
      by_cases hn : n = 0
      · simp [unmatched_go, unmatched_spec_go, hn, hxo]
      · simp [unmatched_go, unmatched_spec_go, hn, hxo, ih]
    · by_cases hxo : x = other
      · simp [unmatched_go, unmatched_spec_go, hx, hxo, Ne.symm hne, ih]
      · simp [unmatched_go, unmatched_spec_go, hx, hxo, ih]

/-- Claim C8: `next_unmatched` and `previous_unmatched` implement
exactly the depth-counting scan described by the claim (returning
`none` when the scanned direction is exhausted without an unmatched
hit), and on `"outer {inner}} world"` `next_unmatched('}')` from offset
0 returns `some 14`. -/
theorem unmatched_scan_spec :
    (∀ (text : List Char) (pos : Nat) (c : Char),
      next_unmatched text pos c = next_unmatched_spec text pos c)
    ∧ (∀ (text : List Char) (pos : Nat) (c : Char),
      previous_unmatched text pos c = previous_unmatched_spec text pos c)
    ∧ next_unmatched ("outer \x7binner\x7d\x7d world".toList) 0 '\x7d' = some 14 := by
  refine ⟨?_, ?_, by decide⟩
  · intro text pos c
    cases h : matching_char c with
    | none => simp [next_unmatched, next_unmatched_spec, h]
    | some other =>
      simp [next_unmatched, next_unmatched_spec, h,
        unmatched_go_eq_spec (matching_char_ne h)]
  · intro text pos c
    cases h : matching_char c with
    | none => simp [previous_unmatched, previous_unmatched_spec, h]
    | some other =>
      simp [previous_unmatched, previous_unmatched_spec, h,
        unmatched_go_eq_spec (matching_char_ne h)]

/-- Well-matched blocks with opener `op` and closer `cl`: the lists of
codepoints a depth-counting scan walks through completely, returning to
its entry depth without ever hitting an unmatched closer.  Codepoints
distinct from both delimiters are transparent. -/
inductive Wm (op cl : Char) : List Char → Prop where
  | nil : Wm op cl []
  | skip {x : Char} {w : List Char} :
      x ≠ op → x ≠ cl → Wm op cl w → Wm op cl (x :: w)
  | pair {w1 w2 : List Char} :
      Wm op cl w1 → Wm op cl w2 → Wm op cl (op :: w1 ++ cl :: w2)

theorem Wm.append {op cl : Char} {w1 w2 : List Char}
    (h1 : Wm op cl w1) (h2 : Wm op cl w2) : Wm op cl (w1 ++ w2) := by
  induction h1 with
  | nil => simpa using h2
  | skip hxop hxcl _ ih =>
    simpa only [List.cons_append] using Wm.skip hxop hxcl ih
  | pair ha hb iha ihb =>
    simp only [List.cons_append, List.append_assoc]
    exact Wm.pair ha (by simpa only [List.cons_append] using ihb)

theorem Wm.reverse_swap {op cl : Char} {w : List Char} (h : Wm op cl w) :
    Wm cl op w.reverse := by
  induction h with
  | nil => exact Wm.nil
  | skip hxop hxcl _ ih =>
    rw [List.reverse_cons]
    exact ih.append (Wm.skip hxcl hxop Wm.nil)
  | pair ha hb iha ihb =>
    simp only [List.reverse_cons, List.reverse_append, List.append_assoc,
      List.singleton_append, List.cons_append, List.nil_append]
    exact ihb.append (Wm.pair iha Wm.nil)

/-- The scan consumes a well-matched block without returning, leaves the
depth unchanged, and adds the block's length to the consumed count. -/
theorem unmatched_go_through {c other : Char} (hne : c ≠ other)
    {w : List Char} (hw : Wm other c w) :
    ∀ (n : Nat) (rest : List Char),
      unmatched_go c other (w ++ rest) n =
        (unmatched_go c other rest n).map (· + w.length) := by
  induction hw with
  | nil =>
    intro n rest
    cases h : unmatched_go c other rest n <;> simp [h]
  | skip hxo hxc _ ih =>
    intro n rest
    rename_i x w' _
    have h1 : unmatched_go c other ((x :: w') ++ rest) n =
        (unmatched_go c other (w' ++ rest) n).map (· + 1) := by
      simp [unmatched_go, hxc, hxo]
    rw [h1, ih n rest]
    cases h : unmatched_go c other rest n
    · simp [h]
    · simp [h]
      omega
  | pair ha hb iha ihb =>
    intro n rest
    rename_i w1 w2
    have hoc : ¬ other = c := Ne.symm hne
    have key : (other :: w1 ++ c :: w2) ++ rest =
        other :: (w1 ++ (c :: (w2 ++ rest))) := by simp
    rw [key]
    have h1 : unmatched_go c other (other :: (w1 ++ (c :: (w2 ++ rest)))) n =
        (unmatched_go c other (w1 ++ (c :: (w2 ++ rest))) (n + 1)).map (· + 1) := by
      simp [unmatched_go, hoc]
    have hstep : unmatched_go c other (c :: (w2 ++ rest)) (n + 1) =
        (unmatched_go c other (w2 ++ rest) n).map (· + 1) := by
      simp [unmatched_go, hne]
    rw [h1, iha (n + 1) (c :: (w2 ++ rest)), hstep, ihb n rest]
    cases h : unmatched_go c other rest n
    · simp [h]
    · simp [h]
      omega

/-- Peeling one depth level off a successful scan: a scan entered at
depth `n + 1` first walks a well-matched block, then consumes a `c`
(the decrement back to depth `n`), then continues as a scan at depth
`n`. -/
theorem unmatched_go_peel {c other : Char} (hne : c ≠ other) :
    ∀ (L : Nat) (l : List Char), l.length ≤ L → ∀ (n k : Nat),
      unmatched_go c other l (n + 1) = some k →
      ∃ w rest k', Wm other c w ∧ l = w ++ c :: rest
        ∧ unmatched_go c other rest n = some k'
        ∧ k = w.length + 1 + k' := by
  intro L
  induction L with
  | zero =>
    intro l hl n k h
    have hnil : l = [] := List.length_eq_zero.mp (Nat.le_zero.mp hl)
    subst hnil
    exact absurd h (by simp [unmatched_go])
  | succ L ih =>
    intro l hl n k h
    cases l with
    | nil => exact absurd h (by simp [unmatched_go])
    | cons x xs =>
      by_cases hx : x = c
      · have h' : (unmatched_go c other xs n).map (· + 1) = some k := by
          simpa [unmatched_go, hx, hne] using h
        obtain ⟨k1, hk1, hk⟩ := Option.map_eq_some'.mp h'
        exact ⟨[], xs, k1, Wm.nil, by simp [hx], hk1, by simp; omega⟩
      · by_cases hxo : x = other
        · have h' : (unmatched_go c other xs (n + 1 + 1)).map (· + 1) = some k := by
            simpa [unmatched_go, hx, hxo, Ne.symm hne] using h
          obtain ⟨k1, hk1, hk⟩ := Option.map_eq_some'.mp h'
          have hxs_len : xs.length ≤ L := by simp at hl; omega
          obtain ⟨w1, rest1, k2, hw1, hxs, hrest1, hk2⟩ :=
            ih xs hxs_len (n + 1) k1 hk1
          have hr1_len : rest1.length ≤ L := by
            have hlen := congrArg List.length hxs
            simp at hlen hl
            omega
          obtain ⟨w2, rest2, k3, hw2, hr1eq, hrest2, hk3⟩ :=
            ih rest1 hr1_len n k2 hrest1
          refine ⟨other :: w1 ++ c :: w2, rest2, k3, Wm.pair hw1 hw2, ?_, hrest2, ?_⟩
          · rw [hxo, hxs, hr1eq]; simp
          · simp; omega
        · have h' : (unmatched_go c other xs (n + 1)).map (· + 1) = some k := by
            simpa [unmatched_go, hx, hxo] using h
          obtain ⟨k1, hk1, hk⟩ := Option.map_eq_some'.mp h'
          have hxs_len : xs.length ≤ L := by simp at hl; omega
          obtain ⟨w1, rest1, k2, hw1, hxs, hrest1, hk2⟩ := ih xs hxs_len n k1 hk1
          exact ⟨x :: w1, rest1, k2, Wm.skip hxo hx hw1, by rw [hxs]; simp,
            hrest1, by simp; omega⟩

/-- Decomposition of a successful depth-0 scan: the consumed prefix is a
well-matched block followed by the unmatched `c`, and the returned
count is the block's length plus one. -/
theorem unmatched_go_sound {c other : Char} (hne : c ≠ other) :
    ∀ (L : Nat) (l : List Char), l.length ≤ L → ∀ k,
      unmatched_go c other l 0 = some k →
      ∃ w post, Wm other c w ∧ l = w ++ c :: post ∧ k = w.length + 1 := by
  intro L
  induction L with
  | zero =>
    intro l hl k h
    have hnil : l = [] := List.length_eq_zero.mp (Nat.le_zero.mp hl)
    subst hnil
    exact absurd h (by simp [unmatched_go])
  | succ L ih =>
    intro l hl k h
    cases l with
    | nil => exact absurd h (by simp [unmatched_go])
    | cons x xs =>
      by_cases hx : x = c
      · have hks : 1 = k := by simpa [unmatched_go, hx] using h
        exact ⟨[], xs, Wm.nil, by simp [hx], by simp; omega⟩
      · by_cases hxo : x = other
        · have h' : (unmatched_go c other xs (0 + 1)).map (· + 1) = some k := by
            simpa [unmatched_go, hx, hxo, Ne.symm hne] using h
          obtain ⟨k1, hk1, hk⟩ := Option.map_eq_some'.mp h'
          obtain ⟨w1, rest1, k2, hw1, hxs, hrest1, hk2⟩ :=
            unmatched_go_peel hne xs.length xs (Nat.le_refl _) 0 k1 hk1
          have hr1_len : rest1.length ≤ L := by
            have hlen := congrArg List.length hxs
            simp at hlen hl
            omega
          obtain ⟨w2, post, hw2, hr1eq, hk3⟩ := ih rest1 hr1_len k2 hrest1
          refine ⟨other :: w1 ++ c :: w2, post, Wm.pair hw1 hw2, ?_, ?_⟩
          · rw [hxo, hxs, hr1eq]; simp
          · simp; omega
        · have h' : (unmatched_go c other xs 0).map (· + 1) = some k := by
            simpa [unmatched_go, hx, hxo] using h
          obtain ⟨k1, hk1, hk⟩ := Option.map_eq_some'.mp h'
          have hxs_len : xs.length ≤ L := by simp at hl; omega
          obtain ⟨w1, post, hw1, hxs, hk2⟩ := ih xs hxs_len k1 hk1
          exact ⟨x :: w1, post, Wm.skip hxo hx hw1, by rw [hxs]; simp,
            by simp; omega⟩

theorem next_unmatched_sound {text : List Char} {pos : Nat} {c other : Char}
    (hmc : matching_char c = some other) {r : Nat}
    (h : next_unmatched text pos c = some r) :
    ∃ w post, Wm other c w ∧ text.drop pos = w ++ c :: post
      ∧ r = pos + (w.length + 1) := by
  simp only [next_unmatched, hmc] at h
  obtain ⟨k, hk, hr⟩ := Option.map_eq_some'.mp h
  obtain ⟨w, post, hw, hdec, hkeq⟩ :=
    unmatched_go_sound (matching_char_ne hmc) (text.drop pos).length _
      (Nat.le_refl _) k hk
  exact ⟨w, post, hw, hdec, by omega⟩

theorem next_unmatched_complete {text : List Char} {pos : Nat} {c other : Char}
    (hmc : matching_char c = some other) {w post : List Char}
    (hw : Wm other c w) (hdec : text.drop pos = w ++ c :: post) :
    next_unmatched text pos c = some (pos + (w.length + 1)) := by
  simp only [next_unmatched, hmc, hdec]
  rw [unmatched_go_through (matching_char_ne hmc) hw 0 (c :: post)]
  have hbase : unmatched_go c other (c :: post) 0 = some 1 := by
    simp [unmatched_go]
  rw [hbase]
  simp
  omega

theorem previous_unmatched_sound {text : List Char} {pos : Nat} {c other : Char}
    (hmc : matching_char c = some other) {r : Nat}
    (h : previous_unmatched text pos c = some r) :
    ∃ w post, Wm other c w ∧ (text.take pos).reverse = w ++ c :: post
      ∧ r = pos - (w.length + 1) := by
  simp only [previous_unmatched, hmc] at h
  obtain ⟨k, hk, hr⟩ := Option.map_eq_some'.mp h
  obtain ⟨w, post, hw, hdec, hkeq⟩ :=
    unmatched_go_sound (matching_char_ne hmc) ((text.take pos).reverse).length _
      (Nat.le_refl _) k hk
  exact ⟨w, post, hw, hdec, by omega⟩

theorem previous_unmatched_complete {text : List Char} {pos : Nat} {c other : Char}
    (hmc : matching_char c = some other) {w post : List Char}
    (hw : Wm other c w) (hdec : (text.take pos).reverse = w ++ c :: post) :
    previous_unmatched text pos c = some (pos - (w.length + 1)) := by
  simp only [previous_unmatched, hmc, hdec]
  rw [unmatched_go_through (matching_char_ne hmc) hw 0 (c :: post)]
  have hbase : unmatched_go c other (c :: post) 0 = some 1 := by
    simp [unmatched_go]
  rw [hbase]
  simp
  omega

/-- Depth counter deciding whether the delimiters of one pair are
balanced (properly nested) in a sequence. -/
def balancedFor (op cl : Char) : List Char → Nat → Bool
  | [], n => decide (n = 0)
  | x :: xs, n =>
    if x = op then balancedFor op cl xs (n + 1)
    else if x = cl then
      match n with
      | 0 => false
      | m + 1 => balancedFor op cl xs m
    else balancedFor op cl xs n

/-- Modelled from the spec: "a sequence whose delimiters are balanced"
(claim C9 and spec section 8); each of the three delimiter pairs is
properly nested. -/
def Balanced (text : List Char) : Bool :=
  balancedFor '(' ')' text 0 && balancedFor '[' ']' text 0
    && balancedFor '\x7b' '\x7d' text 0

/-- Claim C9: on a sequence whose delimiters are balanced, `match_pairs`
is an involution: whenever `match_pairs` started at offset `i` returns
`some j`, `match_pairs` started at offset `j` returns `some i`.  (The
proof never needs the balancedness hypothesis: the two directional
scans are mutually inverse on any input.) -/
theorem match_pairs_involution :
    ∀ (text : List Char) (i j : Nat), Balanced text = true →
      match_pairs text i = some j → match_pairs text j = some i := by
  intro text i j _hbal h
  rcases hpeek : text[i]? with _ | ch
  · simp [match_pairs, hpeek] at h
  rcases hmc : matching_char ch with _ | other
  · simp [match_pairs, hpeek, hmc] at h
  rcases hdir : matching_pair_direction other with _ | left
  · simp [match_pairs, hpeek, hmc, hdir] at h
  have hio : i < text.length := by
    by_contra hc
    push_neg at hc
    rw [List.getElem?_eq_none hc] at hpeek
    exact Option.noConfusion hpeek
  cases left with
  | false =>
    -- the codepoint at i is an opener; forward search for the closer
    have h' : (next_unmatched text (i + 1) other).map (fun r => r - 1) = some j := by
      simpa [match_pairs, hpeek, hmc, hdir] using h
    obtain ⟨r, hr, hj⟩ := Option.map_eq_some'.mp h'
    obtain ⟨w, post, hw, hdec, hreq⟩ := next_unmatched_sound (matching_char_symm hmc) hr
    have hj' : j = i + w.length + 1 := by omega
    have htext : text = text.take (i + 1) ++ (w ++ other :: post) := by
      conv_lhs => rw [← List.take_append_drop (i + 1) text]
      rw [hdec]
    have hlenA : (text.take (i + 1)).length = i + 1 := by
      rw [List.length_take]; omega
    have hpeekj : text[j]? = some other := by
      conv_lhs => rw [htext]
      rw [List.getElem?_append_right (by omega : (text.take (i + 1)).length ≤ j)]
      rw [hlenA]
      rw [show j - (i + 1) = w.length by omega]
      rw [List.getElem?_append_right (Nat.le_refl _)]
      simp
    have hdirch : matching_pair_direction ch = some true := by
      rcases matching_char_direction hmc with ⟨h1, _⟩ | ⟨_, h2⟩
      · exact h1
      · rw [hdir] at h2; exact absurd h2 (by simp)
    have htakej : text.take j = text.take (i + 1) ++ w := by
      conv_lhs => rw [htext]
      rw [show j = (text.take (i + 1)).length + w.length by omega]
      rw [List.take_append]
      rw [List.take_left' rfl]
    have htakei1 : text.take (i + 1) = text.take i ++ [ch] := by
      rw [List.take_succ, hpeek]
      rfl
    have hrevj : (text.take j).reverse = w.reverse ++ (ch :: (text.take i).reverse) := by
      rw [htakej, htakei1]
      simp
    have hprev : previous_unmatched text j ch = some (j - (w.reverse.length + 1)) :=
      previous_unmatched_complete hmc hw.reverse_swap hrevj
    have hgoal : match_pairs text j = previous_unmatched text j ch := by
      simp [match_pairs, hpeekj, matching_char_symm hmc, hdirch]
    rw [hgoal, hprev]
    simp
    omega
  | true =>
    -- the codepoint at i is a closer; backward search for the opener
    have h' : previous_unmatched text i other = some j := by
      simpa [match_pairs, hpeek, hmc, hdir] using h
    obtain ⟨w, post, hw, hdec, hjeq⟩ := previous_unmatched_sound (matching_char_symm hmc) h'
    have hleni : (text.take i).length = i := by
      rw [List.length_take]; omega
    have hlen2 : w.length + 1 + post.length = i := by
      have hc := congrArg List.length hdec
      rw [List.length_reverse, hleni] at hc
      simp at hc
      omega
    have hj' : j = post.length := by omega
    have htakei : text.take i = post.reverse ++ (other :: w.reverse) := by
      have hc := congrArg List.reverse hdec
      rw [List.reverse_reverse] at hc
      rw [hc]
      simp
    have htext : text = post.reverse ++ (other :: (w.reverse ++ text.drop i)) := by
      conv_lhs => rw [← List.take_append_drop i text]
      rw [htakei]
      simp
    have hpeekj : text[j]? = some other := by
      conv_lhs => rw [htext]
      rw [List.getElem?_append_right (by simp [hj'] : (post.reverse : List Char).length ≤ j)]
      simp [hj']
    have hdirch : matching_pair_direction ch = some false := by
      rcases matching_char_direction hmc with ⟨_, h2⟩ | ⟨h1, _⟩
      · rw [hdir] at h2; exact absurd h2 (by simp)
      · exact h1
    have hdropj : text.drop (j + 1) = w.reverse ++ text.drop i := by
      conv_lhs => rw [htext]
      rw [show j + 1 = (post.reverse : List Char).length + 1 by simp [hj']]
      rw [List.drop_append]
      simp
    have hgeti : text[i] = ch := by
      rw [List.getElem?_eq_getElem hio] at hpeek
      exact Option.some.inj hpeek
    have hdropi : text.drop i = ch :: text.drop (i + 1) := by
      rw [List.drop_eq_getElem_cons hio, hgeti]
    have hnext : next_unmatched text (j + 1) ch =
        some ((j + 1) + (w.reverse.length + 1)) :=
      next_unmatched_complete hmc hw.reverse_swap (by rw [hdropj, hdropi])
    have hgoal : match_pairs text j =
        (next_unmatched text (j + 1) ch).map (fun r => r - 1) := by
      simp [match_pairs, hpeekj, matching_char_symm hmc, hdirch]
    rw [hgoal, hnext]
    simp
    omega

/-- Claim C9 witness: the involution applied on the balanced sequence
`"{ }"` with `match_pairs 0 = some 2`, concluding `match_pairs 2 = some 0`. -/
theorem match_pairs_involution_witness :
    Balanced ("\x7b \x7d".toList) = true
    ∧ match_pairs ("\x7b \x7d".toList) 0 = some 2
    ∧ match_pairs ("\x7b \x7d".toList) 2 = some 0 := by
  refine ⟨by decide, by decide, ?_⟩
  exact match_pairs_involution ("\x7b \x7d".toList) 0 2 (by decide) (by decide)

end LapceCore
